import Mathlib

/-!
Verification of the netlify-cms GitHub backend git-orchestration client
(`packages/netlify-cms-backend-github/src/API.js`) against its
natural-language specification.

The JavaScript source is shallowly embedded: pure string manipulation
becomes Lean functions on `String`/`List Char`; the remote, content-addressed
git object store is modelled by the objects themselves (a sha is identified
with the object it addresses, since the client treats shas as opaque
identifiers and the remote guarantees that equal content yields equal shas);
fallible async operations become `Except`/`Option`; remote object creation is
recorded in an explicit effect log.
-/

namespace NetlifyCms

/-! ## Key/branch scheme (API.js lines 16, 139-159) -/

/-- Source line 16: `const CMS_BRANCH_PREFIX = 'cms'`. -/
def CMS_BRANCH_PREFIX : String := "cms"

/-- Source lines 139-147: `generateContentKey(collectionName, slug)`; the
instance fields `useOpenAuthoring` and `repo` are passed explicitly. -/
def generateContentKey (useOpenAuthoring : Bool) (repo collectionName slug : String) : String :=
  if !useOpenAuthoring then
    slug
  else
    repo ++ "/" ++ collectionName ++ "/" ++ slug

/-- Source lines 149-151: branch name is the content key under the cms prefix. -/
def generateBranchName (contentKey : String) : String :=
  CMS_BRANCH_PREFIX ++ "/" ++ contentKey

/-- Source lines 153-155: drop the leading characters of a ref
(`'refs/heads/'.length` is 11); JS `substring` on ASCII coincides with
`String.drop`. -/
def branchNameFromRef (ref : String) : String :=
  ref.drop 11

/-- Source lines 157-159: drop `'refs/heads/cms/'.length` = 15 characters. -/
def contentKeyFromRef (ref : String) : String :=
  ref.drop 15

/-- Embedding of the JavaScript `String.prototype.split('/')` used at source
lines 257 and 435, defined on the character list: splitting the empty string
yields one empty piece, and every separator starts a new piece. -/
def splitSlash : List Char → List (List Char)
  | [] => [[]]
  | c :: rest =>
    let r := splitSlash rest
    if c = '/' then [] :: r
    else (c :: r.headD []) :: r.tail

/-- The string-level JS `split('/')`. -/
def jsSplitSlash (s : String) : List String :=
  (splitSlash s.data).map List.asString

/-- Path segmentation used throughout the source:
`path.split('/').filter(part => part)` (lines 521, 1045); a JS string is
truthy iff non-empty. -/
def pathSegs (p : String) : List String :=
  (jsSplitSlash p).filter (fun s => s ≠ "")

/-! ## The remote git object store, modelled by content

A sha is identified with the object it addresses: the client only ever
compares shas for equality and hands them back to the remote, and the remote
guarantees equal content gives equal shas. Blob shas stay opaque strings
(the client never looks inside blobs); tree shas are modelled by the tree
content itself. -/

/-- A git tree object: each entry maps a single path segment to either a blob
leaf (carrying its file `mode`; its `type` is always `blob`) or a subtree
(whose mode/type are always `040000`/`tree`). -/
inductive TObj where
  | blob (mode : String) (sha : String)
  | tree (entries : List (String × TObj))

/-- Lookup of a tree entry by path segment — first entry with the given
path, as GitHub resolves entries and as lodash
`find(tree.tree, \x7b path \x7d)` does at source lines 1051 and 1055. -/
def lookupE : List (String × TObj) → String → Option TObj
  | [], _ => none
  | (k2, v2) :: rest, k => if k2 == k then some v2 else lookupE rest k

/-- Replace the entry at a segment if present (keeping its position), append
otherwise. -/
def upsertE : List (String × TObj) → String → TObj → List (String × TObj)
  | [], k, v => [(k, v)]
  | (k2, v2) :: rest, k, v =>
    if k2 == k then (k, v) :: rest else (k2, v2) :: upsertE rest k v

/-- Drop every entry at a segment. -/
def removeE : List (String × TObj) → String → List (String × TObj)
  | [], _ => []
  | (k2, v2) :: rest, k =>
    if k2 == k then removeE rest k else (k2, v2) :: removeE rest k

/-- Resolve a blob by a segment path inside a tree, returning its
`(mode, sha)`; directories along the way must be tree entries. This is the
denotation used to compare trees path-by-path. -/
def resolveE : List (String × TObj) → List String → Option (String × String)
  | _, [] => none
  | es, seg :: rest =>
    match lookupE es seg, rest with
    | some (.blob m s), [] => some (m, s)
    | some (.tree ses), _ :: _ => resolveE ses rest
    | _, _ => none

/-- No proper prefix of the segment path hits a blob entry (the path descends
through subtrees or through absent entries only). -/
def cleanPathE : List (String × TObj) → List String → Bool
  | _, [] => true
  | _, [_] => true
  | es, seg :: rest =>
    match lookupE es seg with
    | some (.blob _ _) => false
    | some (.tree ses) => cleanPathE ses rest
    | none => true

/-- Boolean segment-list prefix test (`a` is a prefix of `b`). -/
def segPre : List String → List String → Bool
  | [], _ => true
  | _ :: _, [] => false
  | a :: as, b :: bs => a == b && segPre as bs

/-- Edit a tree at a segment path: `some v` grafts the object `v` there
(creating intermediate subtrees, as GitHub does for nested paths in a
tree-creation request), `none` deletes the entry there (the `sha: null`
convention of the tree API). Models the remote side of `createTree`
(source lines 1127-1132); spec section 4.1. -/
def editAtE : List (String × TObj) → List String → Option TObj → List (String × TObj)
  | es, [], _ => es
  | es, [f], some v => upsertE es f v
  | es, [f], none => removeE es f
  | es, seg :: rest, tgt =>
    let sub := match lookupE es seg with
      | some (.tree ses) => ses
      | _ => []
    upsertE es seg (.tree (editAtE sub rest tgt))

/-- A commit object. `author`/`committer` are opaque payloads passed through
verbatim by the client; `tree` is the commit's tree (value-addressed);
`parents` is the list of parent commit shas. -/
structure CommitVal where
  sha : String
  message : String
  author : String
  committer : String
  tree : TObj
  parents : List String

/-- A tree-ish argument: GitHub's tree endpoints accept both tree shas and
commit shas (the source passes `branchData.commit.sha` to `updateTree`, and
`updateTree` returns it as `parentSha` for use as a commit parent). -/
inductive TreeIsh where
  | commit (c : CommitVal)
  | tree (t : TObj)

/-- The entry list of a tree-ish; `getTree(null)` yields an empty listing
(source lines 1033-1038). Fetching a tree by a blob sha is a remote error;
the modelled flows never do it, and it is mapped to an empty listing here. -/
def entriesOfTObj : TObj → List (String × TObj)
  | .tree es => es
  | .blob _ _ => []

/-- Entries of an optional tree-ish base. -/
def entriesOfTreeIsh : Option TreeIsh → List (String × TObj)
  | none => []
  | some (.commit c) => entriesOfTObj c.tree
  | some (.tree t) => entriesOfTObj t

/-- A sha value in transit: a blob's opaque sha string, or a tree sha
(identified with the tree's content). -/
inductive ShaVal where
  | blob (s : String)
  | tree (t : TObj)

/-- An entry of a tree-creation request, as assembled by `updateTree`
(source lines 1093-1112) and by `rebaseSingleBlobCommit` (line 799): `sha =
none` encodes the `sha: null` deletion convention; `parentSha` is the extra
field `updateTree` threads through for `commit()`. -/
structure UpdateEntry where
  path : String
  mode : String
  type : String
  sha : Option ShaVal
  parentSha : Option TreeIsh

/-- The object a tree-creation request entry denotes, if any. -/
def targetOfUpdate (u : UpdateEntry) : Option TObj :=
  match u.sha with
  | none => none
  | some (.blob s) => some (.blob u.mode s)
  | some (.tree t) => some t

/-- Remote semantics of `createTree(base_tree, tree)` (source lines
1127-1132): each request entry is merged into the base tree at its
(possibly nested) path; `sha: null` deletes. Modelled from spec section 4.1
("entries not mentioned are passed through unchanged"). -/
def createTreeVal (baseSha : Option TreeIsh) (updates : List UpdateEntry) : TObj :=
  .tree (updates.foldl
    (fun acc u => editAtE acc (pathSegs u.path) (targetOfUpdate u))
    (entriesOfTreeIsh baseSha))

/-- A tree entry as returned to the client by the trees API (what
`getBlobInTree` finds). -/
structure TreeEntryRec where
  path : String
  mode : String
  type : String
  sha : ShaVal

/-- Walk a chain of directory segments by successive `getTree` calls
(source lines 1049-1054); a missing entry or a blob met mid-walk rejects the
request chain. -/
def walkDirs : TObj → List String → Option TObj
  | t, [] => some t
  | .tree es, seg :: rest =>
    match lookupE es seg with
    | some (.tree ses) => walkDirs (.tree ses) rest
    | _ => none
  | .blob _ _, _ :: _ => none

/-- The lodash `find(subTree.tree, \x7b path: filename \x7d)` of source line
1055, returning the full entry record. -/
def findEntryRec (t : TObj) (f : String) : Option TreeEntryRec :=
  match t with
  | .tree es =>
    match lookupE es f with
    | some (.blob m s) => some ⟨f, m, "blob", .blob s⟩
    | some (.tree ses) => some ⟨f, "040000", "tree", .tree (.tree ses)⟩
    | none => none
  | .blob _ _ => none

/-- Source lines 1044-1056: `getBlobInTree(treeSha, pathToBlob)` — split the
path, walk every directory segment one `getTree` at a time, then find the
filename in the final subtree. -/
def getBlobInTree (t : TObj) (pathToBlob : String) : Option TreeEntryRec :=
  let segs := pathSegs pathToBlob
  let dirs := segs.dropLast
  match segs.getLast? with
  | none => none
  | some filename => (walkDirs t dirs).bind (fun sub => findEntryRec sub filename)

/-! ## Remote object creation effects -/

/-- A remote object-creation call observed during an operation: one entry per
`createTree`/`createCommit` request issued. -/
inductive GitEff where
  | mkTree (t : TObj)
  | mkCommit (c : CommitVal)

/-- Number of commit creations in an effect log. -/
def countCommits (log : List GitEff) : Nat :=
  log.countP (fun e => match e with | .mkCommit _ => true | _ => false)

/-- A fresh sha for a newly created commit; distinct across one operation's
log. -/
def newCommitSha (log : List GitEff) : String :=
  "new-commit-" ++ toString (countCommits log)

/-- Source lines 1140-1145: some API calls return commit data nested in a
`commit` property; in the typed model both shapes carry the same fields, so
normalization is the identity. -/
def normalizeCommit (c : CommitVal) : CommitVal := c

/-! ## The rebase engine (source lines 742-806) -/

/-- Source lines 777-806: `rebaseSingleBlobCommit(baseCommit, commit,
pathToBlob)` — retain the original commit's message/author/committer, locate
the blob at `pathToBlob` in the original commit's own tree, graft that blob
onto the base commit's tree with one `createTree` call, and create a commit
whose sole parent is the base commit. A missing blob rejects the chain. -/
def rebaseSingleBlobCommit (baseCommit commit : CommitVal) (pathToBlob : String)
    (log : List GitEff) : Except String (CommitVal × List GitEff) :=
  let parent := [baseCommit.sha]
  match getBlobInTree commit.tree pathToBlob with
  | none => .error "blob not found at pathToBlob"
  | some blob =>
    let newTree := createTreeVal (some (.tree baseCommit.tree))
      [⟨pathToBlob, blob.mode, blob.type, some blob.sha, none⟩]
    let log1 := log ++ [.mkTree newTree]
    let newCommit : CommitVal :=
      ⟨newCommitSha log1, commit.message, commit.author, commit.committer, newTree, parent⟩
    .ok (newCommit, log1 ++ [.mkCommit newCommit])

/-- Source lines 742-772: `rebaseSingleBlobCommits(baseCommit, commits,
pathToBlob)` — if the list is empty or the first commit's recorded first
parent already equals the base commit's sha, resolve with `last(commits)`
(no remote object is created); otherwise fold `rebaseSingleBlobCommit` over
the commits starting from the base commit. Accessing `parents[0]` of a
parentless commit throws in JS and rejects here. -/
def rebaseSingleBlobCommits (baseCommit : CommitVal) (commits : List CommitVal)
    (pathToBlob : String) : Except String (Option CommitVal × List GitEff) :=
  match commits.head? with
  | none => .ok (none, [])
  | some c0 =>
    match c0.parents.head? with
    | none => .error "TypeError: cannot read sha of undefined"
    | some p0 =>
      if p0 = baseCommit.sha then .ok (commits.getLast?, [])
      else
        (commits.foldlM
          (fun acc c =>
            rebaseSingleBlobCommit (normalizeCommit acc.1) (normalizeCommit c)
              pathToBlob acc.2)
          (baseCommit, ([] : List GitEff))).map
          (fun r => (some r.1, r.2))

/-- Source lines 827-838: `assertHead(commits, headToAssert)`. Both condition
lines eagerly read `headToAssert.parents[0].sha` and `last(commits).sha`, so
an empty parent list or an empty commit list throws a TypeError before any
comparison. -/
def assertHead (commits : List CommitVal) (headToAssert : CommitVal) :
    Except String (List CommitVal) :=
  match headToAssert.parents.head?, commits.getLast? with
  | some p, some l =>
    if p = l.sha then .ok (commits ++ [headToAssert])
    else if headToAssert.sha = l.sha then .ok commits
    else .error "Editorial workflow branch changed unexpectedly."
  | _, _ => .error "TypeError: cannot read sha of undefined"

/-! ## File trees and updateTree (source lines 510-533, 1080-1125) -/

/-- A node of the `fileTree` object `composeFileTree` builds: a file leaf
(JS `\x7b ...file, file: true \x7d`, with its blob `sha` and optional
`remove` flag) or a directory of children keyed by path segment (JS object
insertion order preserved as list order). -/
inductive FTNode where
  | file (sha : Option String) (remove : Bool)
  | dir (children : List (String × FTNode))

/-- The `fileTree` object: segment-keyed children of the root. -/
abbrev FTree := List (String × FTNode)

/-- JS property lookup on a fileTree level (first binding of the key). -/
def lookupFT : FTree → String → Option FTNode
  | [], _ => none
  | (k2, v2) :: rest, k => if k2 == k then some v2 else lookupFT rest k

/-- JS property assignment on a fileTree level: overwrite in place or append. -/
def upsertFT : FTree → String → FTNode → FTree
  | [], k, v => [(k, v)]
  | (k2, v2) :: rest, k, v =>
    if k2 == k then (k, v) :: rest else (k2, v2) :: upsertFT rest k v

/-- A file object as fed to `composeFileTree`: its repo path, its uploaded
blob sha, and the `remove`/`skip` flags the persist pipeline sets. -/
structure FileRec where
  path : String
  sha : Option String
  remove : Bool
  skip : Bool
deriving DecidableEq

/-- The inner loop of `composeFileTree` (source lines 521-529): descend the
path segments, materialising missing intermediate objects, and assign the
leaf at the filename. When an existing FILE object is met mid-path the JS
code descends into that object; the inserted entry then lives as a stray
property invisible to `updateTree`, which this model renders by dropping the
insertion. -/
def insertFileAt : FTree → List String → FTNode → FTree
  | ft, [], _ => ft
  | ft, [f], leaf => upsertFT ft f leaf
  | ft, seg :: rest, leaf =>
    match lookupFT ft seg with
    | some (.dir sub) => upsertFT ft seg (.dir (insertFileAt sub rest leaf))
    | some (.file _ _) => ft
    | none => upsertFT ft seg (.dir (insertFileAt [] rest leaf))

/-- Source lines 510-533: `composeFileTree(files)` — files with `skip` set
are left out; each other file is inserted at its segmented path and marked
as a file leaf. -/
def composeFileTree (files : List FileRec) : FTree :=
  files.foldl
    (fun ft file =>
      if file.skip then ft
      else insertFileAt ft (pathSegs file.path) (.file file.sha file.remove))
    []

/-- Mode string of an existing base-tree entry (`obj.mode` at source line
1095). -/
def entryModeOf : TObj → String
  | .blob m _ => m
  | .tree _ => "040000"

/-- Type string of an existing base-tree entry (`obj.type` at source line
1095). -/
def entryTypeOf : TObj → String
  | .blob _ _ => "blob"
  | .tree _ => "tree"

mutual

/-- Source lines 1080-1125: `updateTree(sha, path, fileTree)`. The base
tree's entries are fetched; every base entry whose path appears in the
fileTree yields an update (a blob-sha replacement, `sha: null` on `remove`,
or a recursive subtree update), every fileTree key not matching a base entry
is added as a brand-new leaf (mode `100644`) or subtree
(`updateTree(null, ...)`); the merged update list is submitted as one
tree-creation call and the result is returned with the original base sha as
`parentSha`. The per-key computation and update-list assembly below keep the
source's two loops' order: matched base entries first (in base-tree order),
then new keys (in fileTree order). -/
def updateTree (sha : Option TreeIsh) (path : String) (ft : FTree) : UpdateEntry :=
  let base := entriesOfTreeIsh sha
  let results := updTreeGo base ft
  let matchedU := base.filterMap (fun obj =>
    (results.find? (fun r => r.1 == obj.1)).map (fun r => r.2.1))
  let newU := results.filterMap (fun r => if r.2.2 then none else some r.2.1)
  let newTree := createTreeVal sha (matchedU ++ newU)
  ⟨path, "040000", "tree", some (.tree newTree), sha⟩
termination_by (sizeOf ft, 1)

/-- The per-fileTree-key update computation of `updateTree`: for each key,
the update entry it contributes and whether it matched a base entry. -/
def updTreeGo (base : List (String × TObj)) (ft : FTree) :
    List (String × UpdateEntry × Bool) :=
  match ft with
  | [] => []
  | (k, .file s r) :: rest =>
    (match lookupE base k with
     | some obj =>
       (k, (⟨k, entryModeOf obj, entryTypeOf obj,
             if r then none else s.map ShaVal.blob, none⟩ : UpdateEntry), true)
     | none =>
       (k, (⟨k, "100644", "blob", s.map ShaVal.blob, none⟩ : UpdateEntry), false))
    :: updTreeGo base rest
  | (k, .dir sub) :: rest =>
    (match lookupE base k with
     | some obj => (k, updateTree (some (.tree obj)) k sub, true)
     | none => (k, updateTree none k sub, false))
    :: updTreeGo base rest
termination_by (sizeOf ft, 0)

end

/-! ## Commits over change trees, PR merge, workflow operations -/

/-- Sha of a tree-ish when used as a commit parent (`changeTree.parentSha`
at source line 1148); only commit shas occur in the modelled flows. -/
def shaOfTreeIsh : TreeIsh → String
  | .commit c => c.sha
  | .tree _ => ""

/-- The tree value carried by a change-tree result. -/
def treeValOfUpdate (u : UpdateEntry) : TObj :=
  match u.sha with
  | some (.tree t) => t
  | _ => .tree []

/-- Source lines 1147-1157: `commit(message, changeTree)` followed by
`createCommit` — parents are `[changeTree.parentSha]` when present, else
empty (root commit); author/committer are omitted. -/
def commitOnChangeTree (message : String) (changeTree : UpdateEntry) : CommitVal :=
  let parents := match changeTree.parentSha with
    | some p => [shaOfTreeIsh p]
    | none => []
  ⟨"created-commit", message, "", "", treeValOfUpdate changeTree, parents⟩

/-- A pull request as recorded in workflow metadata: number and head sha. -/
structure PRRec where
  number : Nat
  head : String
deriving DecidableEq

/-- The `objects` payload of workflow metadata: the entry file and the media
files. -/
structure ObjectsRec where
  entry : FileRec
  files : List FileRec
deriving DecidableEq

/-- A normalized API error (`APIError` with platform message and HTTP
status); `handleRequestError` (source lines 113-115) wraps every request
failure in this shape, so the `instanceof APIError` test of line 1008 always
holds for request failures. -/
structure APIErrorRec where
  message : String
  status : Nat
deriving DecidableEq

/-- The commit message `forceMergePR` builds (source lines 1019-1022): the
fixed heading followed by one quoted line per forced file path. -/
def forceMergeMessage (files : List FileRec) : String :=
  files.foldl (fun msg f => msg ++ "\n* \x22" ++ f.path ++ "\x22")
    "Automatically generated. Merged on Netlify CMS\n\nForce merge of:"

/-- Source lines 1016-1031: `forceMergePR(pullrequest, objects)` — compose a
file tree from `objects.files.concat(objects.entry)`, build the enumerating
commit message, merge the tree against the base branch tip, commit, and
fast-forward the base branch to the new commit (returned here). -/
def forceMergePR (objects : ObjectsRec) (branchTip : CommitVal) : CommitVal :=
  let files := objects.files ++ [objects.entry]
  let fileTree := composeFileTree files
  let commitMessage := forceMergeMessage files
  let changeTree := updateTree (some (.commit branchTip)) "/" fileTree
  commitOnChangeTree commitMessage changeTree

/-- Outcome of `mergePR`: the platform merged the PR, or the force-merge
fallback produced a direct base-branch commit. -/
inductive MergeOutcome where
  | platform
  | forced (c : CommitVal)

/-- Source lines 997-1014: `mergePR(pullrequest, objects)` issues the
platform merge request (its outcome is the `platformMergeResult` parameter)
and, exactly when that fails with an `APIError` of status 405, falls back to
`forceMergePR`; any other failure is rethrown. -/
def mergePR (platformMergeResult : Except APIErrorRec Unit) (objects : ObjectsRec)
    (branchTip : CommitVal) : Except APIErrorRec MergeOutcome :=
  match platformMergeResult with
  | .ok _ => .ok .platform
  | .error e =>
    if e.status = 405 then .ok (.forced (forceMergePR objects branchTip))
    else .error e

/-! ## deleteUnpublishedEntry (source lines 889-907) -/

/-- The slice of workflow metadata `deleteUnpublishedEntry` reads: whether a
PR is recorded. -/
structure MetaLite where
  pr : Option PRRec
deriving DecidableEq

/-- The remote state `deleteUnpublishedEntry` touches: the repo's branch
list and the entry's metadata record (`retrieveMetadata` reads the latter;
nothing in the delete flow removes it). Closing a PR is a platform PATCH
that succeeds on an already-closed PR and changes nothing modelled here. -/
structure DeleteWorld where
  branches : List String
  meta : Option MetaLite
deriving DecidableEq

/-- Remote semantics of `deleteRef('heads', name)` (source lines 932-936,
958-960): deleting a missing ref fails with the platform message
`Reference does not exist`. -/
def deleteBranchW (w : DeleteWorld) (name : String) : Except String DeleteWorld :=
  if name ∈ w.branches then .ok ⟨w.branches.filter (fun b => b ≠ name), w.meta⟩
  else .error "Reference does not exist"

/-- Source lines 889-907: `deleteUnpublishedEntry(collectionName, slug)` —
retrieve metadata (a missing record rejects with `Not Found`), close the
recorded PR if any, delete the workflow branch, and treat a
`Reference does not exist` failure anywhere in the chain as success
(deletion is documented as idempotent); any other failure is rejected. -/
def deleteUnpublishedEntry (useOpenAuthoring : Bool) (repo : String)
    (w : DeleteWorld) (collectionName slug : String) : Except String DeleteWorld :=
  let contentKey := generateContentKey useOpenAuthoring repo collectionName slug
  let branchName := generateBranchName contentKey
  let attempt : Except String DeleteWorld :=
    match w.meta with
    | none => .error "Not Found"
    | some _ => deleteBranchW w branchName
  match attempt with
  | .ok w2 => .ok w2
  | .error e => if e = "Reference does not exist" then .ok w else .error e

/-! ## updateUnpublishedEntryStatus (source lines 840-887) -/

/-- The slice of workflow metadata `updateUnpublishedEntryStatus` reads. -/
structure WfMetadata where
  pr : Option PRRec
  status : String
  commitMessage : Option String
deriving DecidableEq

/-- The externally visible actions `updateUnpublishedEntryStatus` can
perform, in order. -/
inductive WfAct where
  | closedPR (n : Nat)
  | openedPR (n : Nat)
  | createdPR (title : String)
  | stored (pr : Option PRRec) (status : String)
deriving DecidableEq

/-- Source line 42. -/
def DEFAULT_COMMIT_MESSAGE : String := "Automatically generated by Netlify CMS"

/-- Source lines 840-887: `updateUnpublishedEntryStatus(collectionName,
slug, status)`. Non-fork mode overwrites and stores the status. Fork mode:
`pending_publish` throws; with a recorded PR, only (platform state `open`,
requested `draft`) — close then store — and (`closed`, `pending_review`) —
re-open then store — are handled, every other combination falls through
both conditionals and returns without storing; without a recorded PR,
`pending_review` creates a PR and stores its number/head, anything else
returns without storing. The platform state of the recorded PR is the
`prState` parameter; `createdPR` is the platform's response to `createPR`. -/
def updateUnpublishedEntryStatus (useOpenAuthoring : Bool) (metadata : WfMetadata)
    (prState : String) (createdPR : PRRec) (status : String) :
    Except String (List WfAct) :=
  if !useOpenAuthoring then
    .ok [.stored metadata.pr status]
  else if status = "pending_publish" then
    .error "Open Authoring entries may not be set to the status pending_publish."
  else
    match metadata.pr with
    | some prM =>
      if prState = "open" ∧ status = "draft" then
        .ok [.closedPR prM.number, .stored metadata.pr status]
      else if prState = "closed" ∧ status = "pending_review" then
        .ok [.openedPR prM.number, .stored metadata.pr status]
      else .ok []
    | none =>
      if status = "pending_review" then
        .ok [.createdPR (metadata.commitMessage.getD DEFAULT_COMMIT_MESSAGE),
             .stored (some createdPR) status]
      else .ok []

/-! ## storeMetadata serialization (source lines 188-221)

The `semaphore(1)` ordering gate is the npm `semaphore` package (an external
collaborator): `take` queues a task and runs it when the single slot is
free, in arrival order; `leave` frees the slot and starts the next queued
task. Modelled from spec section 5 ("a per-client-instance ordering gate
(capacity 1) admits one storeMetadata critical section at a time; all other
callers block until it is free, then proceed in the order they arrived").
What the source itself does with the gate (lines 195-219): the critical
section runs the write sequence, and on success calls `leave()` and
resolves (lines 214-215), while on failure the catch block rejects WITHOUT
calling `leave()` (lines 216-218). -/

/-- Execution of a queue of `storeMetadata` calls against the capacity-1
gate. Each list element is one queued call, recorded as whether its write
sequence (source lines 198-213) throws. Per call the result is
`some false` — started and resolved, `some true` — started and rejected, or
`none` — never acquired the slot. -/
def runStoreMetadata (slotTaken : Bool) : List Bool → List (Option Bool)
  | [] => []
  | bodyRejects :: rest =>
    if slotTaken then
      none :: rest.map (fun _ => none)
    else if bodyRejects then
      some true :: rest.map (fun _ => none)
    else
      some false :: runStoreMetadata slotTaken rest

/-- Interleaving model for two concurrent `storeMetadata` bodies on one
client instance. Each body is a read-modify-write cycle against the
metadata ref: a read step captures the ref's current tree
(`checkMetadataRef`, line 198), and a write step publishes the captured
tree with the call's own key set to its own data
(`updateTree`/`commit`/`patchRef`, lines 207-209). `store` is the metadata
ref's tree as a key-to-serialized-data map; `snap0`/`snap1` are the two
tasks' captured snapshots and `pc0`/`pc1` count their completed steps. -/
structure MetaRMWState where
  store : List (String × String)
  snap0 : List (String × String)
  snap1 : List (String × String)
  pc0 : Nat
  pc1 : Nat
deriving DecidableEq

/-- Set a key in the metadata tree (the single-blob `updateTree` merge of
source lines 199-207: the key's entry is replaced or added, everything else
passes through). -/
def upsertKV : List (String × String) → String → String → List (String × String)
  | [], k, v => [(k, v)]
  | (k2, v2) :: rest, k, v =>
    if k2 = k then (k, v) :: rest else (k2, v2) :: upsertKV rest k v

/-- The task currently admitted by the capacity-1 FIFO gate, with task 0
having called `take` first: task 0 holds the slot until its two steps are
done, then task 1, then nobody. -/
def rmwHolder (s : MetaRMWState) : Option (Fin 2) :=
  if s.pc0 < 2 then some 0 else if s.pc1 < 2 then some 1 else none

/-- One scheduler step: task `i` may run its next step only while it holds
the gate. Step 0 is the snapshot read; step 1 publishes the
read-modify-write result computed from the task's own snapshot. -/
def rmwStep (w0 w1 : String × String) (s : MetaRMWState) (i : Fin 2) :
    Option MetaRMWState :=
  if rmwHolder s = some i then
    if i = 0 then
      if s.pc0 = 0 then some ⟨s.store, s.store, s.snap1, 1, s.pc1⟩
      else some ⟨upsertKV s.snap0 w0.1 w0.2, s.snap0, s.snap1, 2, s.pc1⟩
    else
      if s.pc1 = 0 then some ⟨s.store, s.snap0, s.store, s.pc0, 1⟩
      else some ⟨upsertKV s.snap1 w1.1 w1.2, s.snap0, s.snap1, s.pc0, 2⟩
  else none

/-- Run a schedule (a sequence of task indices) from a state; an
inadmissible step aborts the run. -/
def rmwRun (w0 w1 : String × String) : List (Fin 2) → MetaRMWState → Option MetaRMWState
  | [], s => some s
  | i :: rest, s => (rmwStep w0 w1 s i).bind (rmwRun w0 w1 rest)

/-- The remote-creation effect log a full replay of `ds` produces: one
`createTree` and one `createCommit` call per replayed commit, in order. -/
def logOfReplays : List CommitVal → List GitEff
  | [] => []
  | d :: ds => .mkTree d.tree :: .mkCommit d :: logOfReplays ds

/-- The replayed-chain specification for `rebaseSingleBlobCommits`: the
replayed commits `ds` match the originals `cs` in message/author/committer,
each has exactly one parent (the previous replayed commit, or the base
commit for the first), and each replayed tree agrees with the base commit's
tree at every blob path not under `P`. -/
def ReplayChain (P : List String) (baseTree : List (String × TObj)) :
    CommitVal → List CommitVal → List CommitVal → Prop
  | _, [], [] => True
  | prev, c :: cs, d :: ds =>
      d.message = c.message ∧ d.author = c.author ∧ d.committer = c.committer
      ∧ d.parents = [prev.sha]
      ∧ (∀ Q, segPre P Q = false → resolveE (entriesOfTObj d.tree) Q = resolveE baseTree Q)
      ∧ ReplayChain P baseTree d cs ds
  | _, _, _ => False

end NetlifyCms

namespace NetlifyCms

/-! ## Helper lemmas for the key/branch scheme -/

theorem string_drop_append (s t : String) : (s ++ t).drop s.length = t := by
  apply String.ext
  simp [String.drop_eq]

theorem splitSlash_no_slash {a : List Char} (h : '/' ∉ a) : splitSlash a = [a] := by
  induction a with
  | nil => rfl
  | cons c rest ih =>
    simp only [List.mem_cons, not_or] at h
    rw [splitSlash]
    simp only [ih h.2]
    rw [if_neg (Ne.symm h.1)]
    simp

theorem splitSlash_append {a : List Char} (r : List Char) (h : '/' ∉ a) :
    splitSlash (a ++ '/' :: r) = a :: splitSlash r := by
  induction a with
  | nil => simp [splitSlash]
  | cons c rest ih =>
    simp only [List.mem_cons, not_or] at h
    rw [List.cons_append, splitSlash]
    simp only [ih h.2]
    rw [if_neg (Ne.symm h.1)]
    simp

theorem jsSplitSlash_triple (repo coll slug : String) (h1 : '/' ∉ repo.data)
    (h2 : '/' ∉ coll.data) (h3 : '/' ∉ slug.data) :
    jsSplitSlash (repo ++ "/" ++ coll ++ "/" ++ slug) = [repo, coll, slug] := by
  unfold jsSplitSlash
  have hd : (repo ++ "/" ++ coll ++ "/" ++ slug).data
      = repo.data ++ '/' :: (coll.data ++ '/' :: slug.data) := by
    simp
  rw [hd, splitSlash_append _ h1, splitSlash_append _ h2, splitSlash_no_slash h3]
  simp [List.asString_eq]

/-- C1, counterexample. With the GitHub repository identifier format
`owner/name` — which is what `config.repo` holds (`this.repoURL =
/repos/${this.repo}`) — the content key of a multi-repo entry splits into four
components, so splitting does NOT recover the `(repo, collection, slug)`
triple, refuting the claim as stated (its splitting clause fails at this
input). -/
theorem contentKey_split_counterexample :
    jsSplitSlash (generateContentKey true "owner/site" "posts" "hello")
      ≠ ["owner/site", "posts", "hello"] := by
  decide

/-- C1, amended. For every `(repo, collection, slug)` in multi-repo
(open-authoring) mode: turning the content key produced by
`generateContentKey` into a branch ref and applying `contentKeyFromRef`
always yields the original content key; and — provided `repo`,
`collection` and `slug` each contain no `/` character — splitting the
content key on `/` recovers the original triple. -/
theorem contentKey_roundtrip (repo coll slug : String) :
    contentKeyFromRef ("refs/heads/" ++ generateBranchName
        (generateContentKey true repo coll slug))
      = generateContentKey true repo coll slug
    ∧ ('/' ∉ repo.data → '/' ∉ coll.data → '/' ∉ slug.data →
        jsSplitSlash (generateContentKey true repo coll slug) = [repo, coll, slug]) := by
  constructor
  · set ck := generateContentKey true repo coll slug with hck
    have hassoc : ("refs/heads/" ++ generateBranchName ck) = "refs/heads/cms/" ++ ck := by
      apply String.ext
      simp [generateBranchName, CMS_BRANCH_PREFIX]
    rw [hassoc]
    have h15 : ("refs/heads/cms/" : String).length = 15 := by decide
    unfold contentKeyFromRef
    rw [← h15, string_drop_append]
  · intro h1 h2 h3
    have hck : generateContentKey true repo coll slug
        = repo ++ "/" ++ coll ++ "/" ++ slug := rfl
    rw [hck]
    exact jsSplitSlash_triple repo coll slug h1 h2 h3

/-- C1, witness: the ref round-trip clause applied at the real
slash-containing repo format `owner/name`, and both clauses applied at a
concrete slash-free triple (the splitting hypotheses discharged there by
computation). -/
theorem contentKey_roundtrip_witness :
    (contentKeyFromRef ("refs/heads/" ++ generateBranchName
        (generateContentKey true "owner/site" "posts" "hello"))
      = generateContentKey true "owner/site" "posts" "hello")
    ∧ (contentKeyFromRef ("refs/heads/" ++ generateBranchName
        (generateContentKey true "forkowner" "posts" "hello"))
      = generateContentKey true "forkowner" "posts" "hello")
    ∧ jsSplitSlash (generateContentKey true "forkowner" "posts" "hello")
      = ["forkowner", "posts", "hello"] :=
  ⟨(contentKey_roundtrip "owner/site" "posts" "hello").1,
   (contentKey_roundtrip "forkowner" "posts" "hello").1,
   (contentKey_roundtrip "forkowner" "posts" "hello").2
     (by decide) (by decide) (by decide)⟩

end NetlifyCms

namespace NetlifyCms

/-! ## C2: storeMetadata slot release -/

/-- C2: the claim fails on the code. The catch block of `storeMetadata`
(source lines 216-218) rejects without calling
`this._metadataSemaphore.leave()`, so a call whose write sequence throws
settles (rejects) but keeps the capacity-1 slot taken forever: a subsequent
`storeMetadata` call on the same client instance stays queued and never
proceeds (first conjunct). Only a successful call releases the slot and
lets the next queued call run (second conjunct). -/
theorem storeMetadata_slot_leak :
    runStoreMetadata false [true, false] = [some true, none]
    ∧ runStoreMetadata false [false, false] = [some false, some false] := by
  constructor <;> rfl

/-! ## C4: assertHead -/

/-- C4, counterexample. A head commit with an empty parent list whose sha
equals the last commit's sha: the claim says the input list is returned
unchanged, but the code first evaluates `headToAssert.parents[0].sha`
(source line 828), which throws, so `assertHead` errors instead. -/
theorem assertHead_counterexample :
    assertHead [⟨"h", "m", "au", "co", .tree [], ["p"]⟩] ⟨"h", "", "", "", .tree [], []⟩
      = .error "TypeError: cannot read sha of undefined"
    ∧ (⟨"h", "", "", "", .tree [], []⟩ : CommitVal).sha
      = (⟨"h", "m", "au", "co", .tree [], ["p"]⟩ : CommitVal).sha := by
  constructor <;> rfl

/-- C4, amended. Provided `headToAssert` has at least one parent and the
commit list is non-empty: `assertHead` appends `headToAssert` when its
first parent's sha equals the last commit's sha; returns the list unchanged
when it does not but `headToAssert.sha` equals the last commit's sha; and
throws for every other relationship. When `headToAssert.parents` is empty
or the commit list is empty, both condition lines dereference a missing
field first, so the call throws even if `headToAssert.sha` matches. -/
theorem assertHead_spec (commits : List CommitVal) (head : CommitVal) :
    ((head.parents.head? = none ∨ commits.getLast? = none) →
      ∃ e, assertHead commits head = .error e)
    ∧ (∀ p l, head.parents.head? = some p → commits.getLast? = some l →
        assertHead commits head =
          if p = l.sha then .ok (commits ++ [head])
          else if head.sha = l.sha then .ok commits
          else .error "Editorial workflow branch changed unexpectedly.") := by
  constructor
  · intro h
    rcases hp : head.parents.head? with _ | p
    · exact ⟨_, by rw [assertHead, hp]⟩
    · rcases hl : commits.getLast? with _ | l
      · exact ⟨_, by rw [assertHead, hp, hl]⟩
      · rcases h with h | h
        · exact absurd (hp ▸ h) (by simp)
        · exact absurd (hl ▸ h) (by simp)
  · intro p l hp hl
    rw [assertHead, hp, hl]

/-- C4, witness: the amended characterization applied to a head that is the
direct child of the single listed commit (appended), after discharging the
hypotheses at concrete commits. -/
theorem assertHead_spec_witness :
    assertHead [⟨"a", "", "", "", .tree [], []⟩] ⟨"b", "", "", "", .tree [], ["a"]⟩
      = .ok [⟨"a", "", "", "", .tree [], []⟩, ⟨"b", "", "", "", .tree [], ["a"]⟩] := by
  have h := (assertHead_spec [⟨"a", "", "", "", .tree [], []⟩]
      ⟨"b", "", "", "", .tree [], ["a"]⟩).2 "a" ⟨"a", "", "", "", .tree [], []⟩ rfl rfl
  simpa using h

/-! ## C5: rebase early return -/

/-- C5: when the commit list is empty, or the first commit's recorded first
parent sha already equals the base commit's sha, `rebaseSingleBlobCommits`
resolves with `last(commits)` unchanged and issues no tree- or
commit-creation call (the effect log is empty). -/
theorem rebase_noop (base : CommitVal) (commits : List CommitVal) (pathToBlob : String)
    (h : commits = [] ∨ ∃ c0 p, commits.head? = some c0
        ∧ c0.parents.head? = some p ∧ p = base.sha) :
    rebaseSingleBlobCommits base commits pathToBlob = .ok (commits.getLast?, []) := by
  rcases h with h | ⟨c0, p, hc0, hp, hpb⟩
  · subst h; rfl
  · rw [rebaseSingleBlobCommits, hc0]
    dsimp only
    rw [hp]
    dsimp only
    rw [if_pos hpb]

/-- C5, witness: a single commit already sitting on the base commit is
returned as-is with an empty effect log. -/
theorem rebase_noop_witness :
    rebaseSingleBlobCommits ⟨"base-sha", "bm", "ba", "bc", .tree [], []⟩
        [⟨"c1", "m", "a", "c", .tree [], ["base-sha"]⟩] "content/post.md"
      = .ok (some ⟨"c1", "m", "a", "c", .tree [], ["base-sha"]⟩, []) := by
  have h := rebase_noop ⟨"base-sha", "bm", "ba", "bc", .tree [], []⟩
    [⟨"c1", "m", "a", "c", .tree [], ["base-sha"]⟩] "content/post.md"
    (Or.inr ⟨⟨"c1", "m", "a", "c", .tree [], ["base-sha"]⟩, "base-sha", rfl, rfl, rfl⟩)
  simpa using h

/-! ## C8: deleteUnpublishedEntry idempotence -/

/-- C8: for an entry whose metadata record exists, `deleteUnpublishedEntry`
resolves, and calling it again immediately resolves again: the second
branch deletion fails with `Reference does not exist`, which the catch
block (source lines 899-905) converts to success. -/
theorem deleteUnpublishedEntry_idempotent (uoa : Bool) (repo coll slug : String)
    (w : DeleteWorld) (m : MetaLite) (hm : w.meta = some m) :
    ∃ w1 w2, deleteUnpublishedEntry uoa repo w coll slug = .ok w1
      ∧ deleteUnpublishedEntry uoa repo w1 coll slug = .ok w2 := by
  unfold deleteUnpublishedEntry deleteBranchW
  rw [hm]
  dsimp only
  by_cases hb : generateBranchName (generateContentKey uoa repo coll slug) ∈ w.branches
  · rw [if_pos hb]
    dsimp only
    refine ⟨⟨w.branches.filter
        (fun b => b ≠ generateBranchName (generateContentKey uoa repo coll slug)), some m⟩,
      ⟨w.branches.filter
        (fun b => b ≠ generateBranchName (generateContentKey uoa repo coll slug)), some m⟩,
      rfl, ?_⟩
    have hnb : generateBranchName (generateContentKey uoa repo coll slug)
        ∉ (w.branches.filter
          (fun b => b ≠ generateBranchName (generateContentKey uoa repo coll slug))) := by
      simp
    dsimp only
    rw [if_neg hnb]
    simp
  · rw [if_neg hb]
    dsimp only
    exact ⟨w, w, by simp, by simp [deleteUnpublishedEntry, deleteBranchW, hm, hb]⟩

/-- C8, witness: both consecutive deletions of a present entry resolve at a
concrete world. -/
theorem deleteUnpublishedEntry_idempotent_witness :
    ∃ w1 w2,
      deleteUnpublishedEntry true "owner/site" ⟨["cms/owner/site/posts/a"], some ⟨some ⟨3, "h"⟩⟩⟩
          "posts" "a" = .ok w1
      ∧ deleteUnpublishedEntry true "owner/site" w1 "posts" "a" = .ok w2 :=
  deleteUnpublishedEntry_idempotent true "owner/site" "posts" "a"
    ⟨["cms/owner/site/posts/a"], some ⟨some ⟨3, "h"⟩⟩⟩ ⟨some ⟨3, "h"⟩⟩ rfl

/-! ## C10: unhandled status transitions -/

/-- C10, counterexample. The pair (platform state `open`, requested status
`pending_publish`) matches neither handled combination, yet
`updateUnpublishedEntryStatus` does not resolve without writing — it throws
before even consulting the PR state (source lines 851-853), refuting the
claim as stated. -/
theorem updateStatus_counterexample :
    updateUnpublishedEntryStatus true ⟨some ⟨7, "h"⟩, "draft", none⟩ "open" ⟨9, "h2"⟩
        "pending_publish"
      = .error "Open Authoring entries may not be set to the status pending_publish." := by
  rfl

/-- C10, amended. In open-authoring mode with a recorded PR, for a requested
status other than `pending_publish`: if the (PR state, requested status)
pair matches neither (`open`, `draft`) nor (`closed`, `pending_review`),
the call resolves performing no action at all — in particular it stores no
metadata, leaving the recorded status unchanged. (`pending_publish` instead
rejects without storing.) -/
theorem updateStatus_unhandled_no_write (metadata : WfMetadata) (prM : PRRec)
    (prState status : String) (createdPR : PRRec)
    (hpr : metadata.pr = some prM)
    (hnp : status ≠ "pending_publish")
    (h1 : ¬(prState = "open" ∧ status = "draft"))
    (h2 : ¬(prState = "closed" ∧ status = "pending_review")) :
    updateUnpublishedEntryStatus true metadata prState createdPR status = .ok [] := by
  rw [updateUnpublishedEntryStatus, hpr]
  simp [hnp, h1, h2]

/-- C10, witness: a PR that is `open` with requested status `pending_review`
is an unhandled combination; the call resolves with no actions. -/
theorem updateStatus_unhandled_no_write_witness :
    updateUnpublishedEntryStatus true ⟨some ⟨7, "h"⟩, "draft", none⟩ "open" ⟨9, "h2"⟩
        "pending_review" = .ok [] :=
  updateStatus_unhandled_no_write ⟨some ⟨7, "h"⟩, "draft", none⟩ ⟨7, "h"⟩ "open"
    "pending_review" ⟨9, "h2"⟩ rfl (by decide) (by decide) (by decide)

end NetlifyCms

namespace NetlifyCms

/-! ## C9: storeMetadata write serialization -/

theorem rmwRun_stuck (w0 w1 : String × String) (sched : List (Fin 2))
    (s s' : MetaRMWState) (hh : rmwHolder s = none)
    (hr : rmwRun w0 w1 sched s = some s') : s' = s := by
  cases sched with
  | nil => exact (Option.some.inj hr).symm
  | cons i rest =>
    rw [rmwRun, rmwStep, hh] at hr
    simp at hr

/-- C9: under the capacity-1 FIFO gate of `storeMetadata` (source lines
188-221), any admissible interleaving of two concurrent
`storeMetadata(k, A)` / `storeMetadata(k, B)` read-modify-write cycles in
which both calls complete leaves the metadata ref equal to applying the
first-arrived write in full and then the second in full — never a partial
merge, and always in arrival order. -/
theorem storeMetadata_serialized (init : List (String × String)) (w0 w1 : String × String)
    (sched : List (Fin 2)) (s : MetaRMWState)
    (hrun : rmwRun w0 w1 sched ⟨init, [], [], 0, 0⟩ = some s)
    (h0 : s.pc0 = 2) (h1 : s.pc1 = 2) :
    s.store = upsertKV (upsertKV init w0.1 w0.2) w1.1 w1.2 := by
  cases sched with
  | nil =>
    rw [rmwRun] at hrun
    cases Option.some.inj hrun
    simp at h0
  | cons a sched1 =>
  rw [rmwRun] at hrun
  fin_cases a
  case _ =>
    have hr1 : (some (⟨init, init, [], 1, 0⟩ : MetaRMWState)).bind (rmwRun w0 w1 sched1)
        = some s := hrun
    rw [Option.some_bind] at hr1
    cases sched1 with
    | nil =>
      rw [rmwRun] at hr1
      cases Option.some.inj hr1
      simp at h0
    | cons b sched2 =>
    rw [rmwRun] at hr1
    fin_cases b
    case _ =>
      have hr2 : (some (⟨upsertKV init w0.1 w0.2, init, [], 2, 0⟩ : MetaRMWState)).bind
          (rmwRun w0 w1 sched2) = some s := hr1
      rw [Option.some_bind] at hr2
      cases sched2 with
      | nil =>
        rw [rmwRun] at hr2
        cases Option.some.inj hr2
        simp at h1
      | cons c sched3 =>
      rw [rmwRun] at hr2
      fin_cases c
      case _ =>
        have hr3 : (none : Option MetaRMWState).bind (rmwRun w0 w1 sched3) = some s := hr2
        simp at hr3
      case _ =>
        have hr3 : (some (⟨upsertKV init w0.1 w0.2, init, upsertKV init w0.1 w0.2, 2, 1⟩
            : MetaRMWState)).bind (rmwRun w0 w1 sched3) = some s := hr2
        rw [Option.some_bind] at hr3
        cases sched3 with
        | nil =>
          rw [rmwRun] at hr3
          cases Option.some.inj hr3
          simp at h1
        | cons d sched4 =>
        rw [rmwRun] at hr3
        fin_cases d
        case _ =>
          have hr4 : (none : Option MetaRMWState).bind (rmwRun w0 w1 sched4) = some s := hr3
          simp at hr4
        case _ =>
          have hr4 : (some (⟨upsertKV (upsertKV init w0.1 w0.2) w1.1 w1.2, init,
              upsertKV init w0.1 w0.2, 2, 2⟩ : MetaRMWState)).bind
              (rmwRun w0 w1 sched4) = some s := hr3
          rw [Option.some_bind] at hr4
          have hs := rmwRun_stuck w0 w1 sched4 _ s (by rfl) hr4
          rw [hs]
    case _ =>
      have hr2 : (none : Option MetaRMWState).bind (rmwRun w0 w1 sched2) = some s := hr1
      simp at hr2
  case _ =>
    have hr1 : (none : Option MetaRMWState).bind (rmwRun w0 w1 sched1) = some s := hrun
    simp at hr1

/-- C9, witness: the serialization theorem applied to writes A then B on key
`k` under the fully serialized schedule, starting from an empty metadata
tree: the final tree holds B, the complete A-then-B composition. -/
theorem storeMetadata_serialized_witness :
    (⟨[("k", "B")], [], [("k", "A")], 2, 2⟩ : MetaRMWState).store
      = upsertKV (upsertKV [] "k" "A") "k" "B" :=
  storeMetadata_serialized [] ("k", "A") ("k", "B") [0, 0, 1, 1]
    ⟨[("k", "B")], [], [("k", "A")], 2, 2⟩ (by decide) (by decide) (by decide)

end NetlifyCms

namespace NetlifyCms

/-! ## Tree-level lemmas for the rebase engine and updateTree -/


theorem lookupE_upsertE_self (es : List (String × TObj)) (k : String) (v : TObj) :
    lookupE (upsertE es k v) k = some v := by
  induction es with
  | nil => simp [upsertE, lookupE]
  | cons e rest ih =>
    obtain ⟨k2, v2⟩ := e
    rw [upsertE]
    by_cases hk : (k2 == k) = true
    · rw [if_pos hk]
      simp [lookupE]
    · rw [if_neg hk]
      rw [lookupE, if_neg hk]
      exact ih

theorem lookupE_upsertE_other (es : List (String × TObj)) (k q : String) (v : TObj)
    (hq : q ≠ k) : lookupE (upsertE es k v) q = lookupE es q := by
  have hkq : (k == q) = false := beq_eq_false_iff_ne.mpr (Ne.symm hq)
  induction es with
  | nil => simp [upsertE, lookupE, hkq]
  | cons e rest ih =>
    obtain ⟨k2, v2⟩ := e
    rw [upsertE]
    by_cases hk : (k2 == k) = true
    · rw [if_pos hk]
      have hk2 : k2 = k := beq_iff_eq.mp hk
      subst hk2
      rw [lookupE, if_neg (by simp [hkq]), lookupE, if_neg (by simp [hkq])]
    · rw [if_neg hk]
      rw [lookupE, lookupE]
      by_cases h2 : (k2 == q) = true
      · rw [if_pos h2, if_pos h2]
      · rw [if_neg h2, if_neg h2]
        exact ih

theorem lookupE_removeE_self (es : List (String × TObj)) (k : String) :
    lookupE (removeE es k) k = none := by
  induction es with
  | nil => simp [removeE, lookupE]
  | cons e rest ih =>
    obtain ⟨k2, v2⟩ := e
    rw [removeE]
    by_cases hk : (k2 == k) = true
    · rw [if_pos hk]
      exact ih
    · rw [if_neg hk, lookupE, if_neg hk]
      exact ih

theorem lookupE_removeE_other (es : List (String × TObj)) (k q : String)
    (hq : q ≠ k) : lookupE (removeE es k) q = lookupE es q := by
  induction es with
  | nil => simp [removeE]
  | cons e rest ih =>
    obtain ⟨k2, v2⟩ := e
    rw [removeE]
    by_cases hk : (k2 == k) = true
    · rw [if_pos hk]
      have hk2 : k2 = k := beq_iff_eq.mp hk
      subst hk2
      rw [lookupE, if_neg (by simp [beq_eq_false_iff_ne.mpr (Ne.symm hq)])]
      exact ih
    · rw [if_neg hk, lookupE, lookupE]
      by_cases h2 : (k2 == q) = true
      · rw [if_pos h2, if_pos h2]
      · rw [if_neg h2, if_neg h2]
        exact ih

theorem resolveE_cons (es : List (String × TObj)) (q : String) (qr : List String) :
    resolveE es (q :: qr) = (match lookupE es q, qr with
      | some (.blob m s), [] => some (m, s)
      | some (.tree ses), _ :: _ => resolveE ses qr
      | _, _ => none) := by
  rfl

theorem cleanPathE_cons2 (es : List (String × TObj)) (seg s2 : String) (rest : List String) :
    cleanPathE es (seg :: s2 :: rest) = (match lookupE es seg with
      | some (.blob _ _) => false
      | some (.tree ses) => cleanPathE ses (s2 :: rest)
      | none => true) := by
  rfl

theorem editAtE_cons2 (es : List (String × TObj)) (seg s2 : String) (rest : List String)
    (tgt : Option TObj) :
    editAtE es (seg :: s2 :: rest) tgt
      = upsertE es seg (.tree (editAtE (match lookupE es seg with
          | some (.tree ses) => ses
          | _ => []) (s2 :: rest) tgt)) := by
  rfl

theorem resolveE_editAtE_frame :
    ∀ (segs : List String) (es : List (String × TObj)) (tgt : Option TObj) (Q : List String),
    segs ≠ [] → cleanPathE es segs = true → segPre segs Q = false →
    resolveE (editAtE es segs tgt) Q = resolveE es Q := by
  intro segs
  induction segs with
  | nil => intro _ _ _ h; exact absurd rfl h
  | cons seg rest ih =>
    intro es tgt Q _ hcp hnp
    cases rest with
    | nil =>
      cases Q with
      | nil => rfl
      | cons q qr =>
        have hq : (seg == q) = false := by
          rw [segPre] at hnp
          by_cases h : (seg == q) = true
          · rw [h] at hnp
            simp [segPre] at hnp
          · simpa using h
        have hqne : q ≠ seg := by
          intro h
          rw [h] at hq
          simp at hq
        cases tgt with
        | some v =>
          rw [editAtE, resolveE_cons, resolveE_cons, lookupE_upsertE_other es seg q v hqne]
        | none =>
          rw [editAtE, resolveE_cons, resolveE_cons, lookupE_removeE_other es seg q hqne]
    | cons s2 rest2 =>
      cases Q with
      | nil => rfl
      | cons q qr =>
        rw [editAtE_cons2]
        by_cases hq : q = seg
        · subst hq
          have hnp2 : segPre (s2 :: rest2) qr = false := by
            rw [segPre] at hnp
            simpa using hnp
          rw [resolveE_cons, resolveE_cons, lookupE_upsertE_self]
          rw [cleanPathE_cons2] at hcp
          cases hl : lookupE es q with
          | none =>
            dsimp only
            cases qr with
            | nil => rfl
            | cons q2 qr2 =>
              dsimp only
              have hz := ih ([] : List (String × TObj)) tgt (q2 :: qr2) (by simp)
                (by cases rest2 <;> rfl) hnp2
              rw [hz]
              rfl
          | some sub =>
            cases sub with
            | blob bm bs =>
              rw [hl] at hcp
              simp at hcp
            | tree ses =>
              rw [hl] at hcp
              dsimp only
              cases qr with
              | nil => rfl
              | cons q2 qr2 =>
                dsimp only
                exact ih ses tgt (q2 :: qr2) (by simp) hcp hnp2
        · rw [resolveE_cons, resolveE_cons, lookupE_upsertE_other _ _ _ _ hq]

theorem resolveE_editAtE_self_blob :
    ∀ (segs : List String) (es : List (String × TObj)) (m s : String), segs ≠ [] →
    resolveE (editAtE es segs (some (.blob m s))) segs = some (m, s) := by
  intro segs
  induction segs with
  | nil => intro _ _ _ h; exact absurd rfl h
  | cons seg rest ih =>
    intro es m s _
    cases rest with
    | nil =>
      rw [editAtE, resolveE_cons, lookupE_upsertE_self]
    | cons s2 rest2 =>
      rw [editAtE_cons2, resolveE_cons, lookupE_upsertE_self]
      exact ih _ m s (by simp)

theorem resolveE_editAtE_self_none :
    ∀ (segs : List String) (es : List (String × TObj)), segs ≠ [] →
    resolveE (editAtE es segs none) segs = none := by
  intro segs
  induction segs with
  | nil => intro _ h; exact absurd rfl h
  | cons seg rest ih =>
    intro es _
    cases rest with
    | nil =>
      rw [editAtE, resolveE_cons, lookupE_removeE_self]
    | cons s2 rest2 =>
      rw [editAtE_cons2, resolveE_cons, lookupE_upsertE_self]
      exact ih _ (by simp)

theorem cleanPathE_editAtE :
    ∀ (segs : List String) (es : List (String × TObj)) (tgt : Option TObj),
    cleanPathE (editAtE es segs tgt) segs = true := by
  intro segs
  induction segs with
  | nil => intro _ _; rfl
  | cons seg rest ih =>
    intro es tgt
    cases rest with
    | nil => rfl
    | cons s2 rest2 =>
      rw [editAtE_cons2, cleanPathE_cons2, lookupE_upsertE_self]
      exact ih _ tgt

theorem rebaseSingleBlobCommit_eq (prev c : CommitVal) (P : String) (log : List GitEff)
    (fn bm bs : String)
    (hb : getBlobInTree c.tree P = some ⟨fn, bm, "blob", .blob bs⟩) :
    rebaseSingleBlobCommit prev c P log = .ok
      (⟨newCommitSha (log ++ [.mkTree (.tree (editAtE (entriesOfTObj prev.tree)
            (pathSegs P) (some (.blob bm bs))))]),
        c.message, c.author, c.committer,
        .tree (editAtE (entriesOfTObj prev.tree) (pathSegs P) (some (.blob bm bs))),
        [prev.sha]⟩,
       (log ++ [.mkTree (.tree (editAtE (entriesOfTObj prev.tree)
            (pathSegs P) (some (.blob bm bs))))])
         ++ [.mkCommit ⟨newCommitSha (log ++ [.mkTree (.tree (editAtE
              (entriesOfTObj prev.tree) (pathSegs P) (some (.blob bm bs))))]),
            c.message, c.author, c.committer,
            .tree (editAtE (entriesOfTObj prev.tree) (pathSegs P) (some (.blob bm bs))),
            [prev.sha]⟩]) := by
  rw [rebaseSingleBlobCommit, hb]
  rfl

theorem getLast?_getD_cons (d prev : CommitVal) (ds : List CommitVal) :
    (d :: ds).getLast?.getD prev = ds.getLast?.getD d := by
  cases ds with
  | nil => rfl
  | cons e es => rw [List.getLast?_cons_cons]; cases h : (e :: es).getLast? with
    | none => simp at h
    | some x => rfl

theorem exceptBindOk {e : Type} {a b : Type} (x : a) (f : a → Except e b) :
    ((Except.ok x : Except e a) >>= f) = f x := rfl

theorem rebase_foldlM (P : String) (baseTree : List (String × TObj))
    (hsegs : pathSegs P ≠ []) :
    ∀ (coms : List CommitVal) (prev : CommitVal) (log : List GitEff),
    cleanPathE (entriesOfTObj prev.tree) (pathSegs P) = true →
    (∀ Q, segPre (pathSegs P) Q = false →
        resolveE (entriesOfTObj prev.tree) Q = resolveE baseTree Q) →
    (∀ c ∈ coms, ∃ fn bm bs, getBlobInTree c.tree P = some ⟨fn, bm, "blob", .blob bs⟩) →
    ∃ ds outc,
      List.foldlM (fun acc c => rebaseSingleBlobCommit (normalizeCommit acc.1)
          (normalizeCommit c) P acc.2) (prev, log) coms = .ok (outc, log ++ logOfReplays ds)
      ∧ ds.length = coms.length
      ∧ outc = ds.getLast?.getD prev
      ∧ ReplayChain (pathSegs P) baseTree prev coms ds := by
  intro coms
  induction coms with
  | nil =>
    intro prev log _ _ _
    refine ⟨[], prev, ?_, rfl, rfl, trivial⟩
    rw [show logOfReplays [] = [] from rfl, List.append_nil]
    rfl
  | cons c cs ih =>
    intro prev log hcp hfr hbl
    obtain ⟨fn, bm, bs, hb⟩ := hbl c (List.mem_cons_self c cs)
    have hstep := rebaseSingleBlobCommit_eq prev c P log fn bm bs hb
    set T2 : TObj := .tree (editAtE (entriesOfTObj prev.tree) (pathSegs P)
      (some (.blob bm bs))) with hT2
    set d : CommitVal := ⟨newCommitSha (log ++ [.mkTree T2]), c.message, c.author,
      c.committer, T2, [prev.sha]⟩ with hd
    have hcp2 : cleanPathE (entriesOfTObj d.tree) (pathSegs P) = true := by
      rw [hd]
      exact cleanPathE_editAtE (pathSegs P) (entriesOfTObj prev.tree) _
    have hfr2 : ∀ Q, segPre (pathSegs P) Q = false →
        resolveE (entriesOfTObj d.tree) Q = resolveE baseTree Q := by
      intro Q hQ
      rw [hd]
      have h1 := resolveE_editAtE_frame (pathSegs P) (entriesOfTObj prev.tree)
        (some (.blob bm bs)) Q hsegs hcp hQ
      rw [show entriesOfTObj T2 = editAtE (entriesOfTObj prev.tree) (pathSegs P)
        (some (.blob bm bs)) from rfl]
      rw [h1]
      exact hfr Q hQ
    obtain ⟨ds2, outc, hfold, hlen, hout, hchain⟩ :=
      ih d ((log ++ [.mkTree T2]) ++ [.mkCommit d]) hcp2 hfr2
        (fun c2 hc2 => hbl c2 (List.mem_cons_of_mem c hc2))
    refine ⟨d :: ds2, outc, ?_, by simpa using hlen, ?_, ?_⟩
    · rw [List.foldlM_cons]
      have hstep2 : rebaseSingleBlobCommit (normalizeCommit (prev, log).1)
          (normalizeCommit c) P (prev, log).2
          = Except.ok (d, (log ++ [GitEff.mkTree T2]) ++ [GitEff.mkCommit d]) := hstep
      rw [hstep2, exceptBindOk, hfold]
      rw [show logOfReplays (d :: ds2) = .mkTree d.tree :: .mkCommit d :: logOfReplays ds2
        from rfl]
      rw [show d.tree = T2 from rfl]
      simp
    · rw [hout]
      exact (getLast?_getD_cons d prev ds2).symm
    · rw [show ReplayChain (pathSegs P) baseTree prev (c :: cs) (d :: ds2)
        = (d.message = c.message ∧ d.author = c.author ∧ d.committer = c.committer
          ∧ d.parents = [prev.sha]
          ∧ (∀ Q, segPre (pathSegs P) Q = false →
              resolveE (entriesOfTObj d.tree) Q = resolveE baseTree Q)
          ∧ ReplayChain (pathSegs P) baseTree d cs ds2) from rfl]
      exact ⟨rfl, rfl, rfl, rfl, hfr2, hchain⟩

/-- C3, amended. `rebaseSingleBlobCommits`, given N commits that each carry a
blob at path `P` (and whose first commit is not already based on the base
commit, so a rebase actually runs), issues exactly one tree-creation and one
commit-creation call per input commit and produces N new commits — each with
exactly one parent (the prior replayed commit, or the base commit for the
first), with message, author, and committer identical to the corresponding
original commit, and with a tree identical to the BASE commit's tree at
every blob path not under `P` (the `ReplayChain` predicate). The original
claim's comparison of each replayed tree against the corresponding ORIGINAL
commit's tree outside `P` does not hold: the replay grafts each original
blob onto the new base tree, which may disagree with the original commits'
trees outside `P` — that is the point of the rebase. -/
theorem rebase_replays (base : CommitVal) (coms : List CommitVal) (P : String)
    (c0 : CommitVal) (p0 : String)
    (hc0 : coms.head? = some c0) (hp0 : c0.parents.head? = some p0)
    (hne : p0 ≠ base.sha)
    (hsegs : pathSegs P ≠ [])
    (hcp : cleanPathE (entriesOfTObj base.tree) (pathSegs P) = true)
    (hbl : ∀ c ∈ coms, ∃ fn bm bs,
        getBlobInTree c.tree P = some ⟨fn, bm, "blob", .blob bs⟩) :
    ∃ ds, rebaseSingleBlobCommits base coms P = .ok (ds.getLast?, logOfReplays ds)
      ∧ ds.length = coms.length
      ∧ ReplayChain (pathSegs P) (entriesOfTObj base.tree) base coms ds := by
  obtain ⟨ds, outc, hfold, hlen, hout, hchain⟩ :=
    rebase_foldlM P (entriesOfTObj base.tree) hsegs coms base [] hcp (fun _ _ => rfl) hbl
  refine ⟨ds, ?_, hlen, hchain⟩
  rw [rebaseSingleBlobCommits, hc0]
  dsimp only
  rw [hp0]
  dsimp only
  rw [if_neg hne]
  rw [hfold]
  have hcomsne : coms ≠ [] := by
    intro h
    rw [h] at hc0
    simp at hc0
  cases hgl : ds.getLast? with
  | none =>
    rw [List.getLast?_eq_none_iff] at hgl
    rw [hgl] at hlen
    have hce : coms = [] := by
      cases coms with
      | nil => rfl
      | cons a as => simp at hlen
    exact absurd hce hcomsne
  | some x =>
    rw [hgl] at hout
    rw [hout]
    rfl

theorem upsertE_upsertE (es : List (String × TObj)) (k : String) (v1 v2 : TObj) :
    upsertE (upsertE es k v1) k v2 = upsertE es k v2 := by
  induction es with
  | nil => simp [upsertE]
  | cons e rest ih =>
    obtain ⟨k2, w⟩ := e
    rw [upsertE]
    by_cases hk : (k2 == k) = true
    · rw [if_pos hk, upsertE, if_pos (by simp), upsertE, if_pos hk]
    · rw [if_neg hk, upsertE, if_neg hk, upsertE, if_neg hk, ih]

theorem removeE_cons (k2 : String) (w : TObj) (rest : List (String × TObj)) (k : String) :
    removeE ((k2, w) :: rest) k
      = if k2 == k then removeE rest k else (k2, w) :: removeE rest k := by
  rfl

theorem removeE_removeE (es : List (String × TObj)) (k : String) :
    removeE (removeE es k) k = removeE es k := by
  induction es with
  | nil => rfl
  | cons e rest ih =>
    obtain ⟨k2, w⟩ := e
    rw [removeE_cons]
    by_cases hk : (k2 == k) = true
    · rw [if_pos hk, ih]
    · rw [if_neg hk, removeE_cons, if_neg hk, ih]

theorem editAtE_idem :
    ∀ (segs : List String) (es : List (String × TObj)) (tgt : Option TObj), segs ≠ [] →
    editAtE (editAtE es segs tgt) segs tgt = editAtE es segs tgt := by
  intro segs
  induction segs with
  | nil => intro _ _ h; exact absurd rfl h
  | cons seg rest ih =>
    intro es tgt _
    cases rest with
    | nil =>
      cases tgt with
      | some v => rw [editAtE, editAtE, upsertE_upsertE]
      | none => rw [editAtE, editAtE, removeE_removeE]
    | cons s2 rest2 =>
      have hin := editAtE_cons2 es seg s2 rest2 tgt
      set A := editAtE (match lookupE es seg with
        | some (.tree ses) => ses
        | _ => []) (s2 :: rest2) tgt with hA
      rw [hin, editAtE_cons2, lookupE_upsertE_self]
      dsimp only
      have h2 : editAtE A (s2 :: rest2) tgt = A := by
        rw [hA]
        exact ih _ tgt (by simp)
      rw [h2, upsertE_upsertE]

theorem foldl_step_idem {α β : Type} (g : β → β) (u : α)
    (step : β → α → β) (hstep : ∀ y, step y u = g y) (hgg : ∀ y, g (g y) = g y) :
    ∀ (L : List α), (∀ v ∈ L, v = u) → ∀ (x : β), L ≠ [] → L.foldl step x = g x := by
  intro L
  induction L with
  | nil => intro _ _ h; exact absurd rfl h
  | cons v rest ih =>
    intro hall x _
    have hv : v = u := hall v (List.mem_cons_self v rest)
    subst hv
    rw [List.foldl_cons, hstep]
    cases rest with
    | nil => rfl
    | cons w ws =>
      rw [ih (fun y hy => hall y (List.mem_cons_of_mem v hy)) (g x) (by simp)]
      exact hgg x

theorem lookupE_mem_exists (es : List (String × TObj)) (k : String) (v : TObj)
    (hl : lookupE es k = some v) :
    ∃ obj ∈ es, (k == obj.1) = true := by
  induction es with
  | nil => simp [lookupE] at hl
  | cons e rest ih =>
    obtain ⟨k2, w⟩ := e
    rw [lookupE] at hl
    by_cases hk : (k2 == k) = true
    · exact ⟨(k2, w), List.mem_cons_self _ _, beq_iff_eq.mpr (beq_iff_eq.mp hk).symm⟩
    · rw [if_neg hk] at hl
      obtain ⟨obj, hm, ho⟩ := ih hl
      exact ⟨obj, List.mem_cons_of_mem _ hm, ho⟩

theorem filterMap_key_all_eq {α : Type} (u : α) (k : String) :
    ∀ (T : List (String × TObj)) v,
      v ∈ T.filterMap (fun obj => if (k == obj.1) = true then some u else none) → v = u := by
  intro T v hv
  rcases List.mem_filterMap.mp hv with ⟨obj, _, hobj⟩
  by_cases h : (k == obj.1) = true
  · rw [if_pos h] at hobj
    exact (Option.some.inj hobj).symm
  · rw [if_neg h] at hobj
    cases hobj

theorem filterMap_key_ne_nil {α : Type} (u : α) (k : String)
    (T : List (String × TObj)) (obj : String × TObj) (hm : obj ∈ T)
    (hk : (k == obj.1) = true) :
    T.filterMap (fun obj => if (k == obj.1) = true then some u else none) ≠ [] := by
  intro hnil
  have : u ∈ T.filterMap (fun obj => if (k == obj.1) = true then some u else none) :=
    List.mem_filterMap.mpr ⟨obj, hm, by rw [if_pos hk]⟩
  rw [hnil] at this
  cases this

theorem updTreeGo_file (base : List (String × TObj)) (k : String) (s : Option String)
    (r : Bool) (rest : FTree) :
    updTreeGo base ((k, .file s r) :: rest)
      = (match lookupE base k with
         | some obj =>
           (k, (⟨k, entryModeOf obj, entryTypeOf obj,
                 if r then none else s.map ShaVal.blob, none⟩ : UpdateEntry), true)
         | none =>
           (k, (⟨k, "100644", "blob", s.map ShaVal.blob, none⟩ : UpdateEntry), false))
        :: updTreeGo base rest := by
  rw [updTreeGo]

theorem updTreeGo_dir (base : List (String × TObj)) (k : String) (sub : FTree)
    (rest : FTree) :
    updTreeGo base ((k, .dir sub) :: rest)
      = (match lookupE base k with
         | some obj => (k, updateTree (some (.tree obj)) k sub, true)
         | none => (k, updateTree none k sub, false))
        :: updTreeGo base rest := by
  rw [updTreeGo]

theorem updateTree_eq (sha : Option TreeIsh) (path : String) (ft : FTree) :
    updateTree sha path ft
      = ⟨path, "040000", "tree",
          some (.tree (createTreeVal sha
            ((entriesOfTreeIsh sha).filterMap (fun obj =>
              ((updTreeGo (entriesOfTreeIsh sha) ft).find?
                (fun r => r.1 == obj.1)).map (fun r => r.2.1))
             ++ (updTreeGo (entriesOfTreeIsh sha) ft).filterMap
                  (fun r => if r.2.2 then none else some r.2.1)))),
          sha⟩ := by
  rw [updateTree]

theorem updTreeGo_nil (base : List (String × TObj)) : updTreeGo base [] = [] := by
  rw [updTreeGo]

theorem filterMap_matched_singleton {α : Type} (T : List (String × TObj)) (f : String)
    (u : α) (flag : Bool) :
    T.filterMap (fun obj => (([(f, u, flag)].find? (fun r => r.1 == obj.1)).map
        (fun r => r.2.1)))
      = T.filterMap (fun obj => if (f == obj.1) = true then some u else none) := by
  apply List.filterMap_congr
  intro obj _
  by_cases h : (f == obj.1) = true
  · rw [if_pos h]
    rw [show [(f, u, flag)].find? (fun r => r.1 == obj.1) = some (f, u, flag) from by
      simp [List.find?, h]]
    rfl
  · rw [if_neg h]
    rw [show [(f, u, flag)].find? (fun r => r.1 == obj.1) = none from by
      simp only [List.find?]
      rw [show ((f, u, flag).1 == obj.1) = false from by simpa using h]]
    rfl

theorem updateTree_chain_file (T : List (String × TObj)) (v0 : TObj) (f : String)
    (bsha : Option String) (path : String)
    (hps : pathSegs f = [f]) (hl : lookupE T f = some v0) :
    updateTree (some (.tree (.tree T))) path [(f, .file bsha true)]
      = ⟨path, "040000", "tree", some (.tree (.tree (removeE T f))),
          some (.tree (.tree T))⟩ := by
  rw [updateTree_eq]
  rw [show entriesOfTreeIsh (some (.tree (.tree T))) = T from rfl]
  rw [updTreeGo_file, hl]
  dsimp only
  rw [updTreeGo_nil]
  rw [show (if true = true then (none : Option ShaVal) else Option.map ShaVal.blob bsha)
    = none from rfl]
  rw [filterMap_matched_singleton]
  rw [show (([(f, (⟨f, entryModeOf v0, entryTypeOf v0, none, none⟩ : UpdateEntry), true)]
      : List (String × UpdateEntry × Bool)).filterMap
        (fun r => if r.2.2 then none else some r.2.1)) = [] from rfl]
  rw [List.append_nil]
  have hfold : (T.filterMap (fun obj => if (f == obj.1) = true
      then some (⟨f, entryModeOf v0, entryTypeOf v0, none, none⟩ : UpdateEntry)
      else none)).foldl
        (fun acc u => editAtE acc (pathSegs u.path) (targetOfUpdate u)) T
      = removeE T f := by
    obtain ⟨obj, hm, hk⟩ := lookupE_mem_exists T f v0 hl
    apply foldl_step_idem (fun es => removeE es f)
      (⟨f, entryModeOf v0, entryTypeOf v0, none, none⟩ : UpdateEntry)
    · intro y
      rw [show targetOfUpdate (⟨f, entryModeOf v0, entryTypeOf v0, none, none⟩
        : UpdateEntry) = none from rfl]
      rw [show (⟨f, entryModeOf v0, entryTypeOf v0, none, none⟩ : UpdateEntry).path
        = f from rfl]
      rw [hps, editAtE]
    · exact fun y => removeE_removeE y f
    · exact filterMap_key_all_eq _ f T
    · exact filterMap_key_ne_nil _ f T obj hm hk
  rw [show createTreeVal (some (.tree (.tree T)))
      (T.filterMap (fun obj => if (f == obj.1) = true
        then some (⟨f, entryModeOf v0, entryTypeOf v0, none, none⟩ : UpdateEntry)
        else none))
    = .tree ((T.filterMap (fun obj => if (f == obj.1) = true
        then some (⟨f, entryModeOf v0, entryTypeOf v0, none, none⟩ : UpdateEntry)
        else none)).foldl
          (fun acc u => editAtE acc (pathSegs u.path) (targetOfUpdate u)) T) from rfl]
  rw [hfold]

theorem updateTree_chain_dir (T S N : List (String × TObj))
    (seg : String) (sub : FTree) (path : String)
    (hps : pathSegs seg = [seg])
    (hl : lookupE T seg = some (.tree S))
    (hrec : updateTree (some (.tree (.tree S))) seg sub
      = ⟨seg, "040000", "tree", some (.tree (.tree N)), some (.tree (.tree S))⟩) :
    updateTree (some (.tree (.tree T))) path [(seg, .dir sub)]
      = ⟨path, "040000", "tree", some (.tree (.tree (upsertE T seg (.tree N)))),
          some (.tree (.tree T))⟩ := by
  rw [updateTree_eq]
  rw [show entriesOfTreeIsh (some (.tree (.tree T))) = T from rfl]
  rw [updTreeGo_dir, hl]
  dsimp only
  rw [updTreeGo_nil, hrec]
  rw [filterMap_matched_singleton]
  rw [show (([(seg, (⟨seg, "040000", "tree", some (.tree (.tree N)),
        some (.tree (.tree S))⟩ : UpdateEntry), true)]
      : List (String × UpdateEntry × Bool)).filterMap
        (fun r => if r.2.2 then none else some r.2.1)) = [] from rfl]
  rw [List.append_nil]
  have hfold : (T.filterMap (fun obj => if (seg == obj.1) = true
      then some (⟨seg, "040000", "tree", some (.tree (.tree N)),
        some (.tree (.tree S))⟩ : UpdateEntry)
      else none)).foldl
        (fun acc u => editAtE acc (pathSegs u.path) (targetOfUpdate u)) T
      = upsertE T seg (.tree N) := by
    obtain ⟨obj, hm, hk⟩ := lookupE_mem_exists T seg (.tree S) hl
    apply foldl_step_idem (fun es => upsertE es seg (.tree N))
      (⟨seg, "040000", "tree", some (.tree (.tree N)),
        some (.tree (.tree S))⟩ : UpdateEntry)
    · intro y
      rw [show targetOfUpdate (⟨seg, "040000", "tree", some (.tree (.tree N)),
        some (.tree (.tree S))⟩ : UpdateEntry) = some (.tree N) from rfl]
      rw [show (⟨seg, "040000", "tree", some (.tree (.tree N)),
        some (.tree (.tree S))⟩ : UpdateEntry).path = seg from rfl]
      rw [hps, editAtE]
    · exact fun y => upsertE_upsertE y seg (.tree N) (.tree N)
    · exact filterMap_key_all_eq _ seg T
    · exact filterMap_key_ne_nil _ seg T obj hm hk
  rw [show createTreeVal (some (.tree (.tree T)))
      (T.filterMap (fun obj => if (seg == obj.1) = true
        then some (⟨seg, "040000", "tree", some (.tree (.tree N)),
          some (.tree (.tree S))⟩ : UpdateEntry)
        else none))
    = .tree ((T.filterMap (fun obj => if (seg == obj.1) = true
        then some (⟨seg, "040000", "tree", some (.tree (.tree N)),
          some (.tree (.tree S))⟩ : UpdateEntry)
        else none)).foldl
          (fun acc u => editAtE acc (pathSegs u.path) (targetOfUpdate u)) T) from rfl]
  rw [hfold]

theorem splitSlash_ne_nil (cs : List Char) : splitSlash cs ≠ [] := by
  cases cs with
  | nil => simp [splitSlash]
  | cons c rest =>
    rw [splitSlash]
    by_cases h : c = '/'
    · rw [if_pos h]
      simp
    · rw [if_neg h]
      simp

theorem splitSlash_mem_no_slash :
    ∀ (cs : List Char) (p : List Char), p ∈ splitSlash cs → '/' ∉ p := by
  intro cs
  induction cs with
  | nil =>
    intro p hp
    rw [show splitSlash [] = [[]] from rfl] at hp
    rw [List.mem_singleton] at hp
    subst hp
    simp
  | cons c rest ih =>
    intro p hp
    rw [splitSlash] at hp
    by_cases h : c = '/'
    · rw [if_pos h] at hp
      rcases List.mem_cons.mp hp with h2 | h2
      · subst h2; simp
      · exact ih p h2
    · rw [if_neg h] at hp
      rcases List.mem_cons.mp hp with h2 | h2
      · subst h2
        intro hmem
        rcases List.mem_cons.mp hmem with h3 | h3
        · exact h h3.symm
        · rcases hhd : (splitSlash rest).headD [] with _ | _
          · rw [hhd] at h3; cases h3
          · rw [hhd] at h3
            have hmem2 : (splitSlash rest).headD [] ∈ splitSlash rest := by
              cases hsp : splitSlash rest with
              | nil => exact absurd hsp (splitSlash_ne_nil rest)
              | cons a as => simp
            rw [hhd] at hmem2
            exact ih _ hmem2 (hhd ▸ h3)
      · exact ih p (List.mem_of_mem_tail h2)

theorem pathSegs_mem_self (P s : String) (hs : s ∈ pathSegs P) : pathSegs s = [s] := by
  rw [pathSegs, List.mem_filter] at hs
  obtain ⟨hmem, hne⟩ := hs
  rw [jsSplitSlash, List.mem_map] at hmem
  obtain ⟨p, hp, hps⟩ := hmem
  have hdata : s.data = p := by
    rw [← hps]
    exact List.toList_asString p
  have hnoslash : '/' ∉ s.data := hdata ▸ splitSlash_mem_no_slash P.data p hp
  rw [pathSegs, jsSplitSlash, splitSlash_no_slash hnoslash]
  rw [show (List.map List.asString [s.data]) = [s] from by
    simp [List.asString_eq]]
  rw [List.filter_cons]
  have hne2 : (s ≠ "") := by simpa using hne
  simp [hne2]

theorem updateTree_removeChain :
    ∀ (segs : List String) (T : List (String × TObj)) (bsha : Option String) (path : String),
    segs ≠ [] →
    (∀ sg ∈ segs, pathSegs sg = [sg]) →
    (∃ m s, resolveE T segs = some (m, s)) →
    ∃ T2, updateTree (some (.tree (.tree T))) path (insertFileAt [] segs (.file bsha true))
        = ⟨path, "040000", "tree", some (.tree (.tree T2)), some (.tree (.tree T))⟩
      ∧ resolveE T2 segs = none
      ∧ (∀ Q, Q ≠ segs → resolveE T2 Q = resolveE T Q) := by
  intro segs
  induction segs with
  | nil => intro T bsha path h; exact absurd rfl h
  | cons seg rest ih =>
    intro T bsha path _ hsg hres
    cases rest with
    | nil =>
      obtain ⟨m, s, hres⟩ := hres
      rw [resolveE_cons] at hres
      cases hl : lookupE T seg with
      | none =>
        rw [hl] at hres
        simp at hres
      | some v0 =>
        rw [hl] at hres
        cases v0 with
        | tree ses => simp at hres
        | blob bm bs =>
          refine ⟨removeE T seg, ?_, ?_, ?_⟩
          · rw [show insertFileAt [] [seg] (.file bsha true)
              = [(seg, .file bsha true)] from rfl]
            exact updateTree_chain_file T (.blob bm bs) seg bsha path
              (hsg seg (by simp)) hl
          · rw [resolveE_cons, lookupE_removeE_self]
          · intro Q hQ
            cases Q with
            | nil => rfl
            | cons q qr =>
              by_cases hq : q = seg
              · subst hq
                cases qr with
                | nil => exact absurd rfl hQ
                | cons q2 qr2 =>
                  rw [resolveE_cons, resolveE_cons, lookupE_removeE_self, hl]
              · rw [resolveE_cons, resolveE_cons, lookupE_removeE_other T seg q hq]
    | cons s2 rest2 =>
      obtain ⟨m, s, hres⟩ := hres
      rw [resolveE_cons] at hres
      cases hl : lookupE T seg with
      | none =>
        rw [hl] at hres
        simp at hres
      | some v0 =>
        rw [hl] at hres
        cases v0 with
        | blob bm bs => simp at hres
        | tree S =>
          have hres2 : resolveE S (s2 :: rest2) = some (m, s) := hres
          obtain ⟨N, hrecN, hrm, hfr⟩ := ih S bsha seg (by simp)
            (fun sg hsgm => hsg sg (List.mem_cons_of_mem seg hsgm)) ⟨m, s, hres2⟩
          refine ⟨upsertE T seg (.tree N), ?_, ?_, ?_⟩
          · rw [show insertFileAt [] (seg :: s2 :: rest2) (.file bsha true)
              = [(seg, .dir (insertFileAt [] (s2 :: rest2) (.file bsha true)))] from rfl]
            exact updateTree_chain_dir T S N seg _ path (hsg seg (by simp)) hl hrecN
          · rw [resolveE_cons, lookupE_upsertE_self]
            exact hrm
          · intro Q hQ
            cases Q with
            | nil => rfl
            | cons q qr =>
              by_cases hq : q = seg
              · subst hq
                rw [resolveE_cons, resolveE_cons, lookupE_upsertE_self, hl]
                cases qr with
                | nil => rfl
                | cons q2 qr2 =>
                  dsimp only
                  have hqr : (q2 :: qr2) ≠ (s2 :: rest2) := by
                    intro h
                    exact hQ (by rw [h])
                  exact hfr _ hqr
              · rw [resolveE_cons, resolveE_cons,
                  lookupE_upsertE_other T seg q (.tree N) hq]

end NetlifyCms

namespace NetlifyCms

/-! ## C3: counterexample and witness -/

/-- C3, counterexample. One commit whose own tree lacks the path `Q` is
replayed onto a base whose tree has a blob at `Q`: the replayed commit's
tree contains `Q` (inherited from the base) while the original commit's
tree does not, so the replayed tree is NOT identical to the original's tree
outside the rebased path `P`, refuting the claim as stated. -/
theorem rebase_tree_counterexample :
    ∃ d log,
      rebaseSingleBlobCommits
          ⟨"base", "bm", "ba", "bc",
            .tree [("Q", .blob "100644" "qsha"), ("P", .blob "100644" "p0")], []⟩
          [⟨"c1", "msg1", "au1", "co1", .tree [("P", .blob "100644" "p1")], ["old"]⟩]
          "P"
        = .ok (some d, log)
      ∧ resolveE (entriesOfTObj d.tree) ["Q"] = some ("100644", "qsha")
      ∧ resolveE (entriesOfTObj
          (TObj.tree [("P", .blob "100644" "p1")])) ["Q"] = none :=
  ⟨_, _, rfl, rfl, rfl⟩

/-- C3, witness: the amended replay theorem applied to a single commit over
a one-entry base tree, with every hypothesis discharged at the concrete
input. -/
theorem rebase_replays_witness :
    ∃ ds,
      rebaseSingleBlobCommits
          ⟨"base", "bm", "ba", "bc", .tree [("Q", .blob "100644" "qsha")], []⟩
          [⟨"c1", "msg1", "au1", "co1", .tree [("P", .blob "100644" "p1")], ["old"]⟩]
          "P"
        = .ok (ds.getLast?, logOfReplays ds)
      ∧ ds.length
        = [(⟨"c1", "msg1", "au1", "co1", .tree [("P", .blob "100644" "p1")], ["old"]⟩
            : CommitVal)].length
      ∧ ReplayChain (pathSegs "P")
          (entriesOfTObj (⟨"base", "bm", "ba", "bc",
            .tree [("Q", .blob "100644" "qsha")], []⟩ : CommitVal).tree)
          ⟨"base", "bm", "ba", "bc", .tree [("Q", .blob "100644" "qsha")], []⟩
          [⟨"c1", "msg1", "au1", "co1", .tree [("P", .blob "100644" "p1")], ["old"]⟩]
          ds :=
  rebase_replays
    ⟨"base", "bm", "ba", "bc", .tree [("Q", .blob "100644" "qsha")], []⟩
    [⟨"c1", "msg1", "au1", "co1", .tree [("P", .blob "100644" "p1")], ["old"]⟩]
    "P"
    ⟨"c1", "msg1", "au1", "co1", .tree [("P", .blob "100644" "p1")], ["old"]⟩
    "old" rfl rfl (by decide) (by decide) (by decide)
    (by
      intro c hc
      rw [List.mem_singleton] at hc
      subst hc
      exact ⟨"P", "100644", "p1", rfl⟩)

end NetlifyCms

namespace NetlifyCms

/-! ## C6: updateTree with a remove leaf -/

/-- C6. For every base tree containing a blob at path `P`, `updateTree`
applied with the fileTree `composeFileTree` builds for a single
`remove: true` file at `P` produces a tree with `P` removed and every other
blob path of the base tree unchanged — `resolveE` returns the same
`(mode, sha)` pair (and resolved entries are always of type `blob`), so
sha, mode, and type are all preserved. Intermediate directory entries along
`P` necessarily change content; the frame statement quantifies over blob
paths, which is what the base tree's file paths are. -/
theorem updateTree_remove_frame (T : List (String × TObj)) (P : String)
    (bsha : Option String)
    (hne : pathSegs P ≠ [])
    (hres : ∃ m s, resolveE T (pathSegs P) = some (m, s)) :
    ∃ T2,
      (updateTree (some (.tree (.tree T))) "/"
          (composeFileTree [⟨P, bsha, true, false⟩])).sha
        = some (.tree (.tree T2))
      ∧ resolveE T2 (pathSegs P) = none
      ∧ (∀ Q, Q ≠ pathSegs P → resolveE T2 Q = resolveE T Q) := by
  have hcft : composeFileTree [⟨P, bsha, true, false⟩]
      = insertFileAt [] (pathSegs P) (.file bsha true) := rfl
  obtain ⟨T2, hupd, hrm, hfr⟩ := updateTree_removeChain (pathSegs P) T bsha "/" hne
    (fun sg hsg => pathSegs_mem_self P sg hsg) hres
  exact ⟨T2, by rw [hcft, hupd], hrm, hfr⟩

/-- C6, witness: removing the nested path `img/a.png` from a two-entry base
tree keeps the sibling blob `post.md` (and the other blob inside `img`)
intact while dropping the removed path. -/
theorem updateTree_remove_frame_witness :
    ∃ T2,
      (updateTree (some (.tree (.tree
          [("post.md", .blob "100644" "e1"),
           ("img", .tree [("a.png", .blob "100644" "s1"),
                          ("b.png", .blob "100644" "s2")])]))) "/"
          (composeFileTree [⟨"img/a.png", some "s1", true, false⟩])).sha
        = some (.tree (.tree T2))
      ∧ resolveE T2 (pathSegs "img/a.png") = none
      ∧ (∀ Q, Q ≠ pathSegs "img/a.png" →
          resolveE T2 Q
            = resolveE [("post.md", .blob "100644" "e1"),
                ("img", .tree [("a.png", .blob "100644" "s1"),
                               ("b.png", .blob "100644" "s2")])] Q) :=
  updateTree_remove_frame
    [("post.md", .blob "100644" "e1"),
     ("img", .tree [("a.png", .blob "100644" "s1"), ("b.png", .blob "100644" "s2")])]
    "img/a.png" (some "s1") (by decide) ⟨"100644", "s1", by decide⟩

end NetlifyCms

namespace NetlifyCms

/-! ## C7: mergePR 405 fallback -/

theorem foldl_msg_keeps_init (files : List FileRec) (init : String) :
    init.data
      <+: (files.foldl (fun msg f => msg ++ "\n* \x22" ++ f.path ++ "\x22") init).data := by
  induction files generalizing init with
  | nil => exact List.prefix_refl _
  | cons g rest ih =>
    rw [List.foldl_cons]
    have h1 : init.data <+: (init ++ "\n* \x22" ++ g.path ++ "\x22").data := by
      simp only [String.data_append, List.append_assoc]
      exact List.prefix_append _ _
    exact h1.trans (ih _)

theorem quoted_path_infix_foldl (files : List FileRec) (f : FileRec) :
    ∀ init, f ∈ files →
    ("\x22" ++ f.path ++ "\x22").data
      <:+: (files.foldl (fun msg f => msg ++ "\n* \x22" ++ f.path ++ "\x22") init).data := by
  induction files with
  | nil => exact fun init hf => absurd hf (List.not_mem_nil f)
  | cons g rest ih =>
    intro init hf
    rw [List.foldl_cons]
    rcases List.mem_cons.mp hf with h | h
    · subst h
      have hw : init ++ "\n* \x22" ++ f.path ++ "\x22"
          = (init ++ "\n* ") ++ ("\x22" ++ f.path ++ "\x22") := by
        apply String.ext
        simp
      have h2 : ("\x22" ++ f.path ++ "\x22").data
          <:+: (init ++ "\n* \x22" ++ f.path ++ "\x22").data := by
        rw [hw, String.data_append]
        exact (List.suffix_append _ _).isInfix
      exact h2.trans (foldl_msg_keeps_init rest _).isInfix
    · exact ih _ h

/-- C7. When the platform merge request fails with an `APIError` of HTTP
status 405, `mergePR` resolves via `forceMergePR` instead of surfacing the
error, and the message of the resulting base-branch commit contains the
quoted path of every file in `objects.files` and of `objects.entry`. -/
theorem mergePR_405_force (e : APIErrorRec) (objects : ObjectsRec)
    (branchTip : CommitVal) (h405 : e.status = 405) :
    ∃ c, mergePR (.error e) objects branchTip = .ok (.forced c)
      ∧ c.message = forceMergeMessage (objects.files ++ [objects.entry])
      ∧ ∀ f ∈ objects.files ++ [objects.entry],
          ("\x22" ++ f.path ++ "\x22").data <:+: c.message.data := by
  refine ⟨forceMergePR objects branchTip, ?_, rfl, ?_⟩
  · rw [mergePR, if_pos h405]
  · intro f hf
    exact quoted_path_infix_foldl (objects.files ++ [objects.entry]) f _ hf

/-- C7, witness: a 405 failure on a concrete object set forces the merge,
and the forced commit message contains each of the three quoted paths. -/
theorem mergePR_405_force_witness :
    ∃ c, mergePR (.error ⟨"Method Not Allowed", 405⟩)
          ⟨⟨"content/post.md", some "e1", false, false⟩,
           [⟨"img/a.png", some "s1", false, false⟩,
            ⟨"img/b.png", some "s2", false, false⟩]⟩
          ⟨"tip", "m", "a", "c", .tree [], []⟩
        = .ok (.forced c)
      ∧ c.message = forceMergeMessage
          ([⟨"img/a.png", some "s1", false, false⟩,
            ⟨"img/b.png", some "s2", false, false⟩]
           ++ [⟨"content/post.md", some "e1", false, false⟩])
      ∧ ∀ f ∈ ([⟨"img/a.png", some "s1", false, false⟩,
            ⟨"img/b.png", some "s2", false, false⟩]
           ++ [(⟨"content/post.md", some "e1", false, false⟩ : FileRec)]),
          ("\x22" ++ f.path ++ "\x22").data <:+: c.message.data :=
  mergePR_405_force ⟨"Method Not Allowed", 405⟩
    ⟨⟨"content/post.md", some "e1", false, false⟩,
     [⟨"img/a.png", some "s1", false, false⟩,
      ⟨"img/b.png", some "s2", false, false⟩]⟩
    ⟨"tip", "m", "a", "c", .tree [], []⟩ rfl

end NetlifyCms
